import Mathlib

/-!
Verification of the Kindle-Dash static-site builder (`builder.py`).

Strings are modelled as `List Char` (Python `len` counts code points, as does
`List.length`).  The remote translation capability and the IPA transcription
lookup are modelled as oracles; a Python exception raised by the remote call is
the oracle returning `none`.  All definitions are transcribed from the source
file `builder.py`; line references appear in the doc comments.
-/

set_option autoImplicit false

namespace Builder

/-- characters treated as whitespace by Python `str.strip()` / `str.split()`
(ASCII subset: space, tab, newline, carriage return, vertical tab, form feed). -/
def pyIsSpace (c : Char) : Bool :=
  c = ' ' || c = '\t' || c = '\n' || c = '\r' || c = Char.ofNat 11 || c = Char.ofNat 12

/-- Python `s.strip()`: drop whitespace from both ends. -/
def pyStrip (s : List Char) : List Char :=
  ((s.dropWhile pyIsSpace).reverse.dropWhile pyIsSpace).reverse

/-- Python `text.replace(". ", ".|")` (builder.py line 111): leftmost,
non-overlapping replacement of every occurrence of `". "` by `".|"`. -/
def replaceDotSpace : List Char → List Char
  | [] => []
  | [c] => [c]
  | c :: d :: rest =>
    if c = '.' ∧ d = ' ' then '.' :: '|' :: replaceDotSpace rest
    else c :: replaceDotSpace (d :: rest)

/-- Python `s.split(sep)` for a one-character separator given by `p`:
split at every matching character, keeping empty pieces. -/
def splitEach (p : Char → Bool) : List Char → List (List Char)
  | [] => [[]]
  | c :: rest =>
    if p c then [] :: splitEach p rest
    else
      match splitEach p rest with
      | [] => [[c]]
      | q :: qs => (c :: q) :: qs

/-- Python `s.split('|')` (builder.py line 111). -/
def splitBar (s : List Char) : List (List Char) :=
  splitEach (fun c => c = '|') s

/-- the `sentences` list of `translate_text` (builder.py line 111):
`text.replace('. ', '.|').split('|')`. -/
def sentencesOf (text : List Char) : List (List Char) :=
  splitBar (replaceDotSpace text)

/-- the 4500-character limit of `translate_text` (builder.py lines 109, 116). -/
def LIMIT : Nat := 4500

/-- the remote translation capability; `none` models a raised exception. -/
abbrev Translator := List Char → Option (List Char)

/-- the chunk-accumulation loop of `translate_text` (builder.py lines 113-124),
recording only the flushed chunks, i.e. the arguments of the translator calls
that the loop performs when no call raises. -/
def buildChunks : List (List Char) → List Char → List (List Char)
  | [], current => if current.isEmpty then [] else [current]
  | s :: rest, current =>
    if current.length + s.length < LIMIT then buildChunks rest (current ++ s)
    else if current.isEmpty then buildChunks rest s
    else current :: buildChunks rest s

/-- the chunk loop of `translate_text` with the translator calls performed:
first component `some parts` on success / `none` when some call raised,
second component the list of arguments passed to the translator, in order.
A raised call aborts the loop (the exception propagates to the handler of
builder.py line 129), so no further calls appear after a failing one. -/
def chunkTranslate (tr : Translator) : List (List Char) → List Char →
    Option (List (List Char)) × List (List Char)
  | [], current =>
    if current.isEmpty then (some [], [])
    else
      match tr current with
      | some t => (some [t], [current])
      | none => (none, [current])
  | s :: rest, current =>
    if current.length + s.length < LIMIT then chunkTranslate tr rest (current ++ s)
    else if current.isEmpty then chunkTranslate tr rest s
    else
      match tr current with
      | none => (none, [current])
      | some t =>
        let r := chunkTranslate tr rest s
        (r.1.map fun ps => t :: ps, current :: r.2)

/-- Python `sep.join(parts)`. -/
def joinWith (sep : List Char) : List (List Char) → List Char
  | [] => []
  | [s] => s
  | s :: rest => s ++ sep ++ joinWith sep rest

/-- `translate_text` (builder.py lines 91-131), returning the translated text
together with the list of arguments passed to the translation capability.
The guard of line 103 (`not text or not text.strip()`) is `pyStrip text = []`
(an empty string also strips to empty).  Any exception of a translator call is
caught at line 129 and turns the whole result into the empty string. -/
def translate_text (tr : Translator) (text : List Char) : List Char × List (List Char) :=
  if (pyStrip text).isEmpty then ([], [])
  else if LIMIT < text.length then
    match chunkTranslate tr (sentencesOf text) [] with
    | (some parts, calls) => (joinWith [' '] parts, calls)
    | (none, calls) => ([], calls)
  else
    match tr text with
    | some t => (t, [text])
    | none => ([], [text])

/-- the IPA transcription oracle (`eng_to_ipa.convert`); `none` models a raised
exception, an empty result models a falsy return. -/
abbrev IpaConv := List Char → Option (List Char)

/-- Python `s.lower()` on the ASCII letters kept by the alphabetic filter. -/
def lowerAZ (s : List Char) : List Char := s.map Char.toLower

/-- the single-quote character used by the f-string of builder.py line 70. -/
def sq : Char := Char.ofNat 39

/-- the literal text between the word and the transcription in the output of
`add_ipa_to_word` (builder.py line 70); the class attribute is single-quoted. -/
def ipaOpen : List Char :=
  "<sup class=".toList ++ [sq] ++ "ipa".toList ++ [sq] ++ ">/".toList

/-- the literal text after the transcription (builder.py line 70). -/
def ipaClose : List Char := "/</sup>".toList

/-- `add_ipa_to_word` (builder.py lines 52-74).  `re.sub(r'[^a-zA-Z]', '', word)`
is `word.filter Char.isAlpha` (both keep exactly ASCII letters). -/
def add_ipa_to_word (conv : IpaConv) (word : List Char) : List Char :=
  let clean_word := word.filter Char.isAlpha
  if clean_word.length ≤ 7 then word
  else
    match conv (lowerAZ clean_word) with
    | none => word
    | some phonetic =>
      if ¬ phonetic.isEmpty ∧ phonetic ≠ lowerAZ clean_word then
        word ++ ipaOpen ++ phonetic ++ ipaClose
      else word

/-- Python `text.split()` (no argument): split on whitespace runs, discarding
empty pieces; equivalently, split at every whitespace character and drop the
empty results. -/
def pySplitWs (s : List Char) : List (List Char) :=
  (splitEach pyIsSpace s).filter fun w => ¬ w.isEmpty

/-- `add_ipa_to_text` (builder.py lines 77-88). -/
def add_ipa_to_text (conv : IpaConv) (text : List Char) : List Char :=
  joinWith [' '] ((pySplitWs text).map (add_ipa_to_word conv))

/-- CJK character test of builder.py line 297 (`[一-鿿]`, inclusive). -/
def isCJK (c : Char) : Bool :=
  0x4e00 ≤ c.toNat && c.toNat ≤ 0x9fff

/-- `detect_language` (builder.py lines 286-306).  `text.replace(' ', '')`
removes exactly the space character.  The float comparison
`chinese_chars / total_chars > 0.3` is embedded exactly as the integer
comparison `10 * chinese_chars > 3 * total_chars`; the two agree for every
count below about 6 * 10^15 (the double nearest to 0.3 is the largest double
not above 3/10). -/
def detect_language (text : List Char) : List Char :=
  let chinese_chars := (text.filter isCJK).length
  let total_chars := (text.filter fun c => c ≠ ' ').length
  if total_chars = 0 then "en".toList
  else if 10 * chinese_chars > 3 * total_chars then "zh".toList
  else "en".toList

/-! ### Module A: fetch_arxiv_papers -/

/-- a raw result yielded by the arxiv client (fields read at builder.py
lines 164-181; `published.strftime` is modelled as the formatted date text). -/
structure PaperRaw where
  title : List Char
  summary : List Char
  authors : List (List Char)
  published : List Char
  entry_id : List Char
  categories : List (List Char)
deriving DecidableEq

/-- a record of the `papers` list (builder.py lines 173-182). -/
structure Paper where
  title_en : List Char
  title_with_ipa : List Char
  abstract_en : List Char
  abstract_zh : List Char
  authors : List (List Char)
  published : List Char
  url : List Char
  categories : List (List Char)
deriving DecidableEq

/-- Python `summary.replace('\n', ' ')` (builder.py line 165). -/
def replaceNewline (s : List Char) : List Char :=
  s.map fun c => if c = '\n' then ' ' else c

/-- the record built for one arxiv result (builder.py lines 163-182). -/
def mkPaper (conv : IpaConv) (tr : Translator) (r : PaperRaw) : Paper :=
  let abstract_en := replaceNewline r.summary
  { title_en := r.title
    title_with_ipa := add_ipa_to_text conv r.title
    abstract_en := abstract_en
    abstract_zh := (translate_text tr abstract_en).1
    authors := r.authors.take 3
    published := r.published
    url := r.entry_id
    categories := r.categories }

/-- the `for result in client.results(search)` loop (builder.py lines 162-182).
The iterator is modelled as a list of events: `some r` is a yielded result,
`none` is an exception raised by the iterator; the surrounding handler of
line 186 catches it and the already accumulated `papers` list is returned. -/
def fetchLoop (conv : IpaConv) (tr : Translator) :
    List (Option PaperRaw) → List Paper → List Paper
  | [], acc => acc.reverse
  | none :: _, acc => acc.reverse
  | some r :: rest, acc => fetchLoop conv tr rest (mkPaper conv tr r :: acc)

/-- `fetch_arxiv_papers` (builder.py lines 134-189).  A failure of the client
or search construction before any result is yielded is the event list starting
with `none`. -/
def fetch_arxiv_papers (conv : IpaConv) (tr : Translator)
    (results : List (Option PaperRaw)) : List Paper :=
  fetchLoop conv tr results []

/-- the results yielded by an event stream before its first exception. -/
def yielded {α : Type} : List (Option α) → List α
  | [] => []
  | none :: _ => []
  | some a :: rest => a :: yielded rest

/-! ### Module B: fetch_github_trending -/

/-- one JSON item of the search response.  A field is `none` when the key is
absent; `description` and `language` are read with `.get`, so they keep the
distinction between an absent key (outer `none`) and a JSON `null` value
(inner `none`); the other fields are read with `item[...]`, which raises on an
absent key. -/
structure Item where
  full_name : Option (List Char)
  stargazers_count : Option Nat
  description : Option (Option (List Char))
  html_url : Option (List Char)
  language : Option (Option (List Char))
  created_at : Option (List Char)
deriving DecidableEq

/-- a record of the `repos` list (builder.py lines 236-244). -/
structure Repo where
  name : List Char
  stars : Nat
  description_en : List Char
  description_zh : List Char
  url : List Char
  language : Option (List Char)
  created_at : List Char
deriving DecidableEq

/-- Python `item.get(key, default)`: the default only when the key is absent;
the stored value — which may be JSON `null`, i.e. `none` — when present. -/
def dictGet (v : Option (Option (List Char))) (d : List Char) : Option (List Char) :=
  match v with
  | none => some d
  | some w => w

/-- the body of the `for item in data.get('items', [])` loop for one item
(builder.py lines 232-244); `none` models a `KeyError` on a required field,
which the handler of line 252 catches. -/
def processItem (tr : Translator) (item : Item) : Option Repo := do
  let name ← item.full_name
  let stars ← item.stargazers_count
  let url ← item.html_url
  let created ← item.created_at
  let description_en :=
    match dictGet item.description [] with
    | none => []
    | some s => s
  let description_zh :=
    if description_en.isEmpty then [] else (translate_text tr description_en).1
  pure { name := name
         stars := stars
         description_en := description_en
         description_zh := description_zh
         url := url
         language := dictGet item.language ("Unknown".toList)
         created_at := created.take 10 }

/-- the repository loop (builder.py lines 232-244): an exception on one item
ends the loop and the accumulated list is returned. -/
def repoLoop (tr : Translator) : List Item → List Repo → List Repo
  | [], acc => acc.reverse
  | item :: rest, acc =>
    match processItem tr item with
    | none => acc.reverse
    | some r => repoLoop tr rest (r :: acc)

/-- `fetch_github_trending` (builder.py lines 194-255).  The whole request /
status / JSON-decode phase is one `Except` value: `Except.error` covers a
timeout, a non-success status and a malformed response body. -/
def fetch_github_trending (tr : Translator) (resp : Except Unit (List Item))
    (max_results : Nat) : List Repo :=
  match resp with
  | Except.error _ => []
  | Except.ok items => repoLoop tr (items.take max_results) []

/-- the repos built from an item list before the first per-item exception. -/
def yieldedRepos (tr : Translator) : List Item → List Repo
  | [] => []
  | item :: rest =>
    match processItem tr item with
    | none => []
    | some r => r :: yieldedRepos tr rest

/-! ### Modules C-F: the local-file loaders -/

/-- `load_mental_models` (builder.py lines 260-281).  The file oracle is
`none` when the file does not exist, `some (Except.error ())` when reading or
JSON decoding fails, `some (Except.ok v)` for a parsed list. -/
def load_mental_models {α : Type} (file : Option (Except Unit (List α))) : List α :=
  match file with
  | none => []
  | some (Except.error _) => []
  | some (Except.ok models) => models

/-- one JSON record of quotes.json; `none` marks an absent key (read with
`.get`, so no exception). -/
structure QuoteRaw where
  content : Option (List Char)
  author : Option (List Char)
  language : Option (List Char)
deriving DecidableEq

/-- a record of the `quotes` list (builder.py lines 333-338). -/
structure QuoteRec where
  content : List Char
  author : List Char
  language : List Char
  translation : List Char
deriving DecidableEq

/-- the record built for one quote (builder.py lines 323-338). -/
def mkQuote (tr : Translator) (q : QuoteRaw) : QuoteRec :=
  let content := q.content.getD []
  let language := q.language.getD (detect_language content)
  let translation := if language = "en".toList then (translate_text tr content).1 else []
  { content := content
    author := q.author.getD ("佚名".toList)
    language := language
    translation := translation }

/-- `load_quotes` (builder.py lines 309-348). -/
def load_quotes (tr : Translator) (file : Option (Except Unit (List QuoteRaw))) :
    List QuoteRec :=
  match file with
  | none => []
  | some (Except.error _) => []
  | some (Except.ok raw_quotes) => raw_quotes.map (mkQuote tr)

/-- a record of the `lyrics` list (builder.py lines 372-376). -/
structure Lyric where
  name : List Char
  content : List Char
  lines : List (List Char)
deriving DecidableEq

/-- the per-file loop of `load_lyrics` (builder.py lines 366-376): each entry
is a (stem, content-or-read-error) pair; a read error ends the loop and the
accumulated list is returned (handler of line 381). -/
def lyricLoop : List (List Char × Except Unit (List Char)) → List Lyric → List Lyric
  | [], acc => acc.reverse
  | (_, Except.error _) :: _, acc => acc.reverse
  | (n, Except.ok content) :: rest, acc =>
    lyricLoop rest
      ({ name := n, content := content, lines := splitEach (fun c => c = '\n') content } :: acc)

/-- `load_lyrics` (builder.py lines 353-384); the directory oracle is `none`
when the lyrics directory does not exist. -/
def load_lyrics (dirFiles : Option (List (List Char × Except Unit (List Char)))) :
    List Lyric :=
  match dirFiles with
  | none => []
  | some files => lyricLoop files []

/-- the lyric records built before the first read error. -/
def yieldedLyrics : List (List Char × Except Unit (List Char)) → List Lyric
  | [] => []
  | (_, Except.error _) :: _ => []
  | (n, Except.ok content) :: rest =>
    { name := n, content := content, lines := splitEach (fun c => c = '\n') content }
      :: yieldedLyrics rest

/-- `load_words` (builder.py lines 391-413), same shape as `load_mental_models`. -/
def load_words {α : Type} (file : Option (Except Unit (List α))) : List α :=
  match file with
  | none => []
  | some (Except.error _) => []
  | some (Except.ok words) => words

/-! ### Substring test (Python `p in s`) and concrete inputs -/

/-- s begins with p. -/
def startsWith : List Char → List Char → Bool
  | _, [] => true
  | [], _ :: _ => false
  | c :: s, d :: p => c == d && startsWith s p

/-- Python `p in s`: p occurs contiguously in s. -/
def hasSub (s p : List Char) : Bool :=
  match s with
  | [] => startsWith [] p
  | _ :: rest => startsWith s p || hasSub rest p

/-- the double-quote character. -/
def dq : Char := Char.ofNat 34

/-- the double-quoted fragment the specification text uses for the IPA markup. -/
def dqFrag : List Char := "<sup class=".toList ++ [dq] ++ "ipa".toList ++ [dq] ++ ">".toList

/-- the identity translator: every call succeeds and echoes its argument. -/
def cwTr : Translator := fun s => some s

/-- an IPA oracle whose every lookup raises. -/
def cwConvNone : IpaConv := fun _ => none

/-- an IPA oracle returning the fixed transcription `z`. -/
def cwConvZ : IpaConv := fun _ => some ['z']

/-- 2300 `a`s, then `. `, then 2300 `b`s: length 4602, two sentence units. -/
def cw2text : List Char :=
  List.replicate 2300 'a' ++ '.' :: ' ' :: List.replicate 2300 'b'

/-- first unit of `cw2text` (length 2301). -/
def cw2u1 : List Char := List.replicate 2300 'a' ++ ['.']

/-- second unit of `cw2text` (length 2300). -/
def cw2u2 : List Char := List.replicate 2300 'b'

/-- 2000 `a`s, `. `, 2000 `b`s, `. `, 497 `c`s: length 4501, three units of
lengths 2001, 2001 and 497 that all fit in one single chunk of length 4499. -/
def cw3text : List Char :=
  List.replicate 2000 'a' ++ '.' :: ' ' ::
    (List.replicate 2000 'b' ++ '.' :: ' ' :: List.replicate 497 'c')

/-- first unit of `cw3text`. -/
def cw3u1 : List Char := List.replicate 2000 'a' ++ ['.']

/-- second unit of `cw3text`. -/
def cw3u2 : List Char := List.replicate 2000 'b' ++ ['.']

/-- third unit of `cw3text`. -/
def cw3u3 : List Char := List.replicate 497 'c'

/-- the character list `A.B.`. -/
def strAB : List Char := ['A', '.', 'B', '.']

/-- third unit of `cwAtext`: `A.B.` followed by 4493 `z`s (length 4497). -/
def cwAu3 : List Char := 'A' :: '.' :: 'B' :: '.' :: List.replicate 4493 'z'

/-- `A. B. A.B.zzz...z` (length 4503): its multi-unit first chunk `A.B.`
also occurs verbatim later in the text. -/
def cwAtext : List Char := ['A'] ++ '.' :: ' ' :: (['B'] ++ '.' :: ' ' :: cwAu3)

/-- `A. B. zzz...z` (length 4506): its multi-unit first chunk `A.B.` does not
occur verbatim in the text. -/
def cwBtext : List Char :=
  ['A'] ++ '.' :: ' ' :: (['B'] ++ '.' :: ' ' :: List.replicate 4500 'z')

/-- a raw arxiv result used for the error-path instances. -/
def cwPaperRaw : PaperRaw :=
  { title := ['T'], summary := ['S'], authors := [['X']],
    published := ['d'], entry_id := ['u'], categories := [['c']] }

/-- a GitHub item whose `language` key is present with JSON `null` (the shape
GitHub returns for a repository without a primary language). -/
def itemNullLang : Item :=
  { full_name := some ("o/ai".toList), stargazers_count := some 5,
    description := some none, html_url := some ("u".toList),
    language := some none, created_at := some ("2026-01-06T00:00:00Z".toList) }

/-- the same item with the `language` key absent. -/
def itemNoLang : Item :=
  { full_name := some ("o/ai".toList), stargazers_count := some 5,
    description := some none, html_url := some ("u".toList),
    language := none, created_at := some ("2026-01-06T00:00:00Z".toList) }

end Builder


namespace Builder

/-! ### Lemmas about the string primitives -/

theorem pyStrip_eq_nil_iff (s : List Char) : pyStrip s = [] ↔ s.all pyIsSpace = true := by
  unfold pyStrip
  rw [List.reverse_eq_nil_iff, List.dropWhile_eq_nil_iff, List.all_eq_true]
  constructor
  · intro h x hx
    rcases List.mem_append.mp
        ((List.takeWhile_append_dropWhile (p := pyIsSpace) (l := s)) ▸ hx) with h1 | h2
    · exact List.mem_takeWhile_imp h1
    · exact h x (List.mem_reverse.mpr h2)
  · intro h x hx
    exact h x ((List.dropWhile_sublist pyIsSpace).subset (List.mem_reverse.mp hx))

theorem rds_dot_space (t : List Char) :
    replaceDotSpace ('.' :: ' ' :: t) = '.' :: '|' :: replaceDotSpace t := by
  simp [replaceDotSpace]

theorem rds_cons₂_ne (c d : Char) (t : List Char) (h : ¬ (c = '.' ∧ d = ' ')) :
    replaceDotSpace (c :: d :: t) = c :: replaceDotSpace (d :: t) := by
  simp [replaceDotSpace, h]

theorem rds_append_no_dot (s : List Char) (t : List Char) (h : ∀ c ∈ s, ¬ c = '.') :
    replaceDotSpace (s ++ t) = s ++ replaceDotSpace t := by
  induction s with
  | nil => simp
  | cons c s' ih =>
    have hc : ¬ c = '.' := h c (List.mem_cons_self c s')
    have h' : ∀ x ∈ s', ¬ x = '.' := fun x hx => h x (List.mem_cons_of_mem c hx)
    cases hm : s' ++ t with
    | nil =>
      rcases List.append_eq_nil.mp hm with ⟨hs, ht⟩
      subst hs; subst ht
      simp [replaceDotSpace]
    | cons d rest =>
      calc replaceDotSpace (c :: s' ++ t)
          = c :: replaceDotSpace (s' ++ t) := by
            rw [List.cons_append, hm, rds_cons₂_ne c d rest (fun hh => hc hh.1)]
        _ = c :: (s' ++ replaceDotSpace t) := by rw [ih h']
        _ = (c :: s') ++ replaceDotSpace t := by simp

theorem rds_no_dot (s : List Char) (h : ∀ c ∈ s, ¬ c = '.') : replaceDotSpace s = s := by
  have := rds_append_no_dot s [] h
  simpa [replaceDotSpace] using this

theorem splitEach_ne_nil (p : Char → Bool) (s : List Char) : splitEach p s ≠ [] := by
  induction s with
  | nil => simp [splitEach]
  | cons c rest ih =>
    cases hpc : p c with
    | true => simp [splitEach, hpc]
    | false =>
      cases hs : splitEach p rest with
      | nil => exact absurd hs ih
      | cons q qs => simp [splitEach, hpc, hs]

theorem splitBar_cons_bar (t : List Char) : splitBar ('|' :: t) = [] :: splitBar t := by
  simp [splitBar, splitEach]

theorem splitBar_cons_no_bar (c : Char) (t : List Char) (hc : ¬ c = '|') (q : List Char)
    (qs : List (List Char)) (ht : splitBar t = q :: qs) :
    splitBar (c :: t) = (c :: q) :: qs := by
  unfold splitBar at ht ⊢
  simp [splitEach, hc, ht]

theorem splitBar_append_no_bar (s : List Char) (t : List Char) (h : ∀ c ∈ s, ¬ c = '|')
    (q : List Char) (qs : List (List Char)) (ht : splitBar t = q :: qs) :
    splitBar (s ++ t) = (s ++ q) :: qs := by
  induction s with
  | nil => simpa using ht
  | cons c s' ih =>
    have hc : ¬ c = '|' := h c (List.mem_cons_self c s')
    have h' : ∀ x ∈ s', ¬ x = '|' := fun x hx => h x (List.mem_cons_of_mem c hx)
    rw [List.cons_append]
    rw [splitBar_cons_no_bar c (s' ++ t) hc (s' ++ q) qs (ih h')]
    simp

theorem splitBar_no_bar (s : List Char) (h : ∀ c ∈ s, ¬ c = '|') : splitBar s = [s] := by
  have := splitBar_append_no_bar s [] h [] [] (by simp [splitBar, splitEach])
  simpa using this

theorem sentencesOf_block (s rest : List Char) (hdot : ∀ c ∈ s, ¬ c = '.')
    (hbar : ∀ c ∈ s, ¬ c = '|') (q : List Char) (qs : List (List Char))
    (hrest : splitBar (replaceDotSpace rest) = q :: qs) :
    sentencesOf (s ++ '.' :: ' ' :: rest) = (s ++ ['.']) :: q :: qs := by
  unfold sentencesOf
  rw [rds_append_no_dot s _ hdot, rds_dot_space]
  have hsplit : splitBar ('|' :: replaceDotSpace rest) = [] :: q :: qs := by
    rw [splitBar_cons_bar, hrest]
  have : splitBar ('.' :: '|' :: replaceDotSpace rest) = ['.'] :: q :: qs := by
    rw [splitBar_cons_no_bar '.' _ (by decide) [] (q :: qs) hsplit]
  rw [show s ++ '.' :: '|' :: replaceDotSpace rest = s ++ ('.' :: '|' :: replaceDotSpace rest) from rfl]
  rw [splitBar_append_no_bar s _ hbar ['.'] (q :: qs) this]

/-! ### Lemmas about the chunk loop -/

theorem buildChunks_step_fit (s : List Char) (rest : List (List Char)) (cur : List Char)
    (h : cur.length + s.length < LIMIT) :
    buildChunks (s :: rest) cur = buildChunks rest (cur ++ s) := by
  simp only [buildChunks]
  rw [if_pos h]

theorem buildChunks_step_flush (s : List Char) (rest : List (List Char)) (cur : List Char)
    (h : ¬ cur.length + s.length < LIMIT) (hc : cur.isEmpty = false) :
    buildChunks (s :: rest) cur = cur :: buildChunks rest s := by
  simp only [buildChunks]
  rw [if_neg h, if_neg (by simp [hc])]

theorem buildChunks_step_skip (s : List Char) (rest : List (List Char))
    (h : ¬ s.length < LIMIT) :
    buildChunks (s :: rest) [] = buildChunks rest s := by
  simp only [buildChunks]
  rw [if_neg (by simpa using h)]
  simp

theorem buildChunks_last (cur : List Char) (hc : cur.isEmpty = false) :
    buildChunks [] cur = [cur] := by
  simp only [buildChunks]
  rw [if_neg (by simp [hc])]

theorem buildChunks_ne_nil (ss : List (List Char)) (cur : List Char)
    (h : cur ≠ [] ∨ ∃ u ∈ ss, u ≠ []) : buildChunks ss cur ≠ [] := by
  induction ss generalizing cur with
  | nil =>
    have hc : cur ≠ [] := by
      rcases h with h | ⟨u, hu, _⟩
      · exact h
      · exact absurd hu (List.not_mem_nil u)
    simp only [buildChunks]
    rw [if_neg (by simpa using hc)]
    simp
  | cons s rest ih =>
    by_cases h1 : cur.length + s.length < LIMIT
    · rw [buildChunks_step_fit s rest cur h1]
      refine ih (cur ++ s) ?_
      rcases h with h | ⟨u, hu, hne⟩
      · exact Or.inl (by simp [h])
      · rcases List.mem_cons.mp hu with rfl | hu'
        · exact Or.inl (by simp [hne])
        · exact Or.inr ⟨u, hu', hne⟩
    · by_cases h2 : cur.isEmpty
      · have hcur : cur = [] := List.isEmpty_iff.mp h2
        subst hcur
        rw [buildChunks_step_skip s rest (by simpa using h1)]
        refine ih s (Or.inl ?_)
        intro hsnil
        subst hsnil
        simp [LIMIT] at h1
      · rw [buildChunks_step_flush s rest cur h1 (Bool.eq_false_iff.mpr h2)]
        simp

theorem buildChunks_all_lt (ss : List (List Char)) (cur : List Char)
    (hu : ∀ u ∈ ss, u.length < LIMIT) (hc : cur.length < LIMIT) :
    ∀ c ∈ buildChunks ss cur, c.length < LIMIT := by
  induction ss generalizing cur with
  | nil =>
    intro c hcmem
    simp only [buildChunks] at hcmem
    split at hcmem
    · exact absurd hcmem (List.not_mem_nil c)
    · rw [List.mem_singleton.mp hcmem]; exact hc
  | cons s rest ih =>
    intro c hcmem
    simp only [buildChunks] at hcmem
    split at hcmem
    · rename_i h1
      exact ih (cur ++ s) (fun u hu' => hu u (List.mem_cons_of_mem s hu'))
        (by simpa using h1) c hcmem
    · split at hcmem
      · exact ih s (fun u hu' => hu u (List.mem_cons_of_mem s hu'))
          (hu s (List.mem_cons_self s rest)) c hcmem
      · rcases List.mem_cons.mp hcmem with rfl | hmem
        · exact hc
        · exact ih s (fun u hu' => hu u (List.mem_cons_of_mem s hu'))
            (hu s (List.mem_cons_self s rest)) c hmem

theorem chunkTranslate_of_ok (tr : Translator) (ss : List (List Char)) (cur : List Char)
    (h : ∀ c ∈ buildChunks ss cur, tr c ≠ none) :
    chunkTranslate tr ss cur =
      (some ((buildChunks ss cur).map fun c => (tr c).getD []), buildChunks ss cur) := by
  induction ss generalizing cur with
  | nil =>
    by_cases hc : cur.isEmpty
    · simp only [chunkTranslate, buildChunks]
      rw [if_pos hc, if_pos hc]
      simp
    · have hb : buildChunks [] cur = [cur] :=
        buildChunks_last cur (Bool.eq_false_iff.mpr hc)
      have hcur : tr cur ≠ none := h cur (by rw [hb]; exact List.mem_singleton_self cur)
      cases htr : tr cur with
      | none => exact absurd htr hcur
      | some t =>
        simp only [chunkTranslate]
        rw [if_neg hc, htr, hb]
        simp [htr]
  | cons s rest ih =>
    by_cases h1 : cur.length + s.length < LIMIT
    · have hb : buildChunks (s :: rest) cur = buildChunks rest (cur ++ s) := by
        simp only [buildChunks]; rw [if_pos h1]
      have hct : chunkTranslate tr (s :: rest) cur = chunkTranslate tr rest (cur ++ s) := by
        simp only [chunkTranslate]; rw [if_pos h1]
      rw [hct, hb]
      rw [hb] at h
      exact ih (cur ++ s) h
    · by_cases h2 : cur.isEmpty
      · have hb : buildChunks (s :: rest) cur = buildChunks rest s := by
          simp only [buildChunks]; rw [if_neg h1, if_pos h2]
        have hct : chunkTranslate tr (s :: rest) cur = chunkTranslate tr rest s := by
          simp only [chunkTranslate]; rw [if_neg h1, if_pos h2]
        rw [hct, hb]
        rw [hb] at h
        exact ih s h
      · have hb : buildChunks (s :: rest) cur = cur :: buildChunks rest s := by
          simp only [buildChunks]; rw [if_neg h1, if_neg h2]
        have hcur : tr cur ≠ none := h cur (by rw [hb]; exact List.mem_cons_self cur _)
        cases htr : tr cur with
        | none => exact absurd htr hcur
        | some t =>
          have hr := ih s (fun c hc => h c (by rw [hb]; exact List.mem_cons_of_mem cur hc))
          simp only [chunkTranslate]
          rw [if_neg h1, if_neg h2, htr, hr, hb]
          simp [htr]

theorem chunkTranslate_fst_none (tr : Translator) (ss : List (List Char)) (cur : List Char)
    (h : ∃ c ∈ (chunkTranslate tr ss cur).2, tr c = none) :
    (chunkTranslate tr ss cur).1 = none := by
  induction ss generalizing cur with
  | nil =>
    by_cases hc : cur.isEmpty
    · simp only [chunkTranslate] at h ⊢
      rw [if_pos hc] at h ⊢
      simp at h
    · cases htr : tr cur with
      | none => simp only [chunkTranslate]; rw [if_neg hc, htr]
      | some t =>
        simp only [chunkTranslate] at h ⊢
        rw [if_neg hc, htr] at h ⊢
        simp at h
        rw [h] at htr
        exact absurd htr (by simp)
  | cons s rest ih =>
    by_cases h1 : cur.length + s.length < LIMIT
    · have hct : chunkTranslate tr (s :: rest) cur = chunkTranslate tr rest (cur ++ s) := by
        simp only [chunkTranslate]; rw [if_pos h1]
      rw [hct] at h ⊢
      exact ih (cur ++ s) h
    · by_cases h2 : cur.isEmpty
      · have hct : chunkTranslate tr (s :: rest) cur = chunkTranslate tr rest s := by
          simp only [chunkTranslate]; rw [if_neg h1, if_pos h2]
        rw [hct] at h ⊢
        exact ih s h
      · cases htr : tr cur with
        | none => simp only [chunkTranslate]; rw [if_neg h1, if_neg h2, htr]
        | some t =>
          have hct : chunkTranslate tr (s :: rest) cur =
              ((chunkTranslate tr rest s).1.map fun ps => t :: ps,
                cur :: (chunkTranslate tr rest s).2) := by
            simp only [chunkTranslate]; rw [if_neg h1, if_neg h2, htr]
          rw [hct] at h ⊢
          rcases h with ⟨c, hcmem, hcnone⟩
          rcases List.mem_cons.mp hcmem with rfl | hmem
        
          · rw [hcnone] at htr; exact absurd htr (by simp)
          · have := ih s ⟨c, hmem, hcnone⟩
            simp [this]

/-! ### Case lemmas for translate_text -/

theorem translate_text_empty (tr : Translator) (text : List Char) (h : pyStrip text = []) :
    translate_text tr text = ([], []) := by
  simp [translate_text, h]

theorem translate_text_short (tr : Translator) (text : List Char) (h1 : pyStrip text ≠ [])
    (h2 : text.length ≤ LIMIT) :
    (translate_text tr text).2 = [text] ∧ (translate_text tr text).1 = (tr text).getD [] := by
  unfold translate_text
  rw [if_neg (by simpa [List.isEmpty_iff] using h1), if_neg (Nat.not_lt.mpr h2)]
  cases tr text <;> simp

theorem translate_text_long_ok (tr : Translator) (text : List Char)
    (parts calls : List (List Char)) (h1 : pyStrip text ≠ []) (h2 : LIMIT < text.length)
    (hct : chunkTranslate tr (sentencesOf text) [] = (some parts, calls)) :
    translate_text tr text = (joinWith [' '] parts, calls) := by
  unfold translate_text
  rw [if_neg (by simpa [List.isEmpty_iff] using h1), if_pos h2, hct]

theorem translate_text_long_err (tr : Translator) (text : List Char)
    (calls : List (List Char)) (h1 : pyStrip text ≠ []) (h2 : LIMIT < text.length)
    (hct : chunkTranslate tr (sentencesOf text) [] = (none, calls)) :
    translate_text tr text = ([], calls) := by
  unfold translate_text
  rw [if_neg (by simpa [List.isEmpty_iff] using h1), if_pos h2, hct]


/-! ### Sentence-splitting structure lemmas -/

theorem sentencesOf_ne_nil (text : List Char) : sentencesOf text ≠ [] :=
  splitEach_ne_nil _ _

theorem sentencesOf_nil : sentencesOf [] = [[]] := rfl

theorem sentencesOf_single (c : Char) (hc : ¬ c = '|') : sentencesOf [c] = [[c]] := by
  unfold sentencesOf
  have hr : replaceDotSpace [c] = [c] := rfl
  rw [hr]
  exact splitBar_no_bar [c] (by intro x hx; rw [List.mem_singleton.mp hx]; exact hc)

theorem sentencesOf_dot_space (rest : List Char) :
    sentencesOf ('.' :: ' ' :: rest) = ['.'] :: sentencesOf rest := by
  unfold sentencesOf
  rw [rds_dot_space]
  rcases hS : splitBar (replaceDotSpace rest) with _ | ⟨q, qs⟩
  · exact absurd hS (splitEach_ne_nil _ _)
  · rw [splitBar_cons_no_bar '.' _ (by decide) [] (q :: qs) (by rw [splitBar_cons_bar, hS])]

theorem sentencesOf_cons_ne (c d : Char) (rest : List Char) (hcd : ¬ (c = '.' ∧ d = ' '))
    (hc : ¬ c = '|') (q : List Char) (qs : List (List Char))
    (h : sentencesOf (d :: rest) = q :: qs) :
    sentencesOf (c :: d :: rest) = (c :: q) :: qs := by
  unfold sentencesOf at h ⊢
  rw [rds_cons₂_ne c d rest hcd]
  exact splitBar_cons_no_bar c _ hc q qs h

theorem joinWith_cons_head (sep : List Char) (c : Char) (q : List Char)
    (qs : List (List Char)) :
    joinWith sep ((c :: q) :: qs) = c :: joinWith sep (q :: qs) := by
  cases qs with
  | nil => rfl
  | cons q2 qs2 => simp [joinWith]

/-- units joined back with single spaces restore a '|'-free input, and every
unit except the last ends with a period. -/
theorem sentences_rejoin (text : List Char) (h : '|' ∉ text) :
    joinWith [' '] (sentencesOf text) = text ∧
    ∀ u ∈ (sentencesOf text).dropLast, ∃ v, u = v ++ ['.'] := by
  induction text using replaceDotSpace.induct with
  | case1 =>
    refine ⟨rfl, ?_⟩
    intro u hu
    simp [sentencesOf_nil] at hu
  | case2 c =>
    have hc : ¬ c = '|' := by
      intro hcc; exact h (by rw [hcc]; exact List.mem_singleton_self _)
    rw [sentencesOf_single c hc]
    exact ⟨rfl, by intro u hu; simp at hu⟩
  | case3 c d rest hcd ih =>
    obtain ⟨rfl, rfl⟩ := hcd
    have h' : '|' ∉ rest := fun hm => h (List.mem_cons_of_mem _ (List.mem_cons_of_mem _ hm))
    obtain ⟨ih1, ih2⟩ := ih h'
    rw [sentencesOf_dot_space]
    rcases hS : sentencesOf rest with _ | ⟨q, qs⟩
    · exact absurd hS (sentencesOf_ne_nil rest)
    · rw [hS] at ih1 ih2
      constructor
      · rw [show joinWith [' '] (['.'] :: q :: qs) = ['.'] ++ [' '] ++ joinWith [' '] (q :: qs)
          from by simp [joinWith]]
        rw [ih1]
        simp
      · intro u hu
        rw [show (['.'] :: q :: qs).dropLast = ['.'] :: (q :: qs).dropLast from rfl] at hu
        rcases List.mem_cons.mp hu with rfl | hu'
        · exact ⟨[], rfl⟩
        · exact ih2 u hu'
  | case4 c d rest hcd ih =>
    have hc : ¬ c = '|' := by
      intro hcc; exact h (by rw [hcc]; exact List.mem_cons_self _ _)
    have h' : '|' ∉ d :: rest := fun hm => h (List.mem_cons_of_mem _ hm)
    obtain ⟨ih1, ih2⟩ := ih h'
    rcases hS : sentencesOf (d :: rest) with _ | ⟨q, qs⟩
    · exact absurd hS (sentencesOf_ne_nil _)
    · rw [hS] at ih1 ih2
      rw [sentencesOf_cons_ne c d rest hcd hc q qs hS]
      constructor
      · rw [joinWith_cons_head, ih1]
      · cases qs with
        | nil => intro u hu; simp at hu
        | cons q2 qs2 =>
          intro u hu
          rw [show ((c :: q) :: q2 :: qs2).dropLast = (c :: q) :: (q2 :: qs2).dropLast
            from rfl] at hu
          rcases List.mem_cons.mp hu with rfl | hu'
          · obtain ⟨v, hv⟩ := ih2 q (by
              rw [show (q :: q2 :: qs2).dropLast = q :: (q2 :: qs2).dropLast from rfl]
              exact List.mem_cons_self _ _)
            exact ⟨c :: v, by rw [hv]; rfl⟩
          · exact ih2 u (by
              rw [show (q :: q2 :: qs2).dropLast = q :: (q2 :: qs2).dropLast from rfl]
              exact List.mem_cons_of_mem _ hu')

/-- the flushed chunks concatenate, without separators, to the concatenation
of all units. -/
theorem buildChunks_join (ss : List (List Char)) (cur : List Char) :
    (buildChunks ss cur).flatten = cur ++ ss.flatten := by
  induction ss generalizing cur with
  | nil =>
    by_cases hc : cur.isEmpty
    · have : cur = [] := List.isEmpty_iff.mp hc
      subst this; simp [buildChunks]
    · rw [buildChunks_last cur (Bool.eq_false_iff.mpr hc)]; simp
  | cons s rest ih =>
    by_cases h1 : cur.length + s.length < LIMIT
    · rw [buildChunks_step_fit s rest cur h1, ih]; simp
    · by_cases h2 : cur.isEmpty
      · have : cur = [] := List.isEmpty_iff.mp h2
        subst this
        rw [buildChunks_step_skip s rest (by simpa using h1), ih]; simp
      · rw [buildChunks_step_flush s rest cur h1 (Bool.eq_false_iff.mpr h2)]
        simp [ih]

/-! ### Substring lemmas -/

theorem startsWith_append (p t : List Char) : startsWith (p ++ t) p = true := by
  induction p with
  | nil => cases t <;> rfl
  | cons c p' ih => simp [startsWith, ih]

theorem hasSub_of_startsWith (s p : List Char) (h : startsWith s p = true) :
    hasSub s p = true := by
  cases s with
  | nil => simpa [hasSub] using h
  | cons c rest => simp [hasSub, h]

theorem hasSub_append_left (s t p : List Char) (h : hasSub t p = true) :
    hasSub (s ++ t) p = true := by
  induction s with
  | nil => simpa using h
  | cons c s' ih => simp [hasSub, ih]

theorem hasSub_replicate_ne (n : Nat) (c a : Char) (q : List Char) (h : ¬ c = a) :
    hasSub (List.replicate n c) (a :: q) = false := by
  have hb : (c == a) = false := beq_eq_false_iff_ne.mpr h
  induction n with
  | zero => simp [hasSub, startsWith]
  | succ n ih =>
    rw [List.replicate_succ]
    simp [hasSub, startsWith, hb, ih]

/-! ### Small helpers for concrete inputs -/

theorem mem_replicate_ne (n : Nat) (a b : Char) (h : ¬ a = b) :
    ∀ c ∈ List.replicate n a, ¬ c = b := by
  intro c hc
  rw [List.eq_of_mem_replicate hc]
  exact h

theorem isEmpty_false (l : List Char) (h : l ≠ []) : l.isEmpty = false := by
  cases l with
  | nil => exact absurd rfl h
  | cons a as => rfl

theorem not_dot_of_pyIsSpace (c : Char) (h : pyIsSpace c = true) : ¬ c = '.' := by
  intro hc
  subst hc
  exact absurd h (by decide)

theorem not_bar_of_pyIsSpace (c : Char) (h : pyIsSpace c = true) : ¬ c = '|' := by
  intro hc
  subst hc
  exact absurd h (by decide)

theorem cw2text_length : cw2text.length = 4602 := by
  unfold cw2text
  rw [List.length_append, List.length_replicate, List.length_cons, List.length_cons,
    List.length_replicate]

theorem cw2u1_length : cw2u1.length = 2301 := by
  unfold cw2u1
  rw [List.length_append, List.length_replicate]
  decide

theorem cw2u2_length : cw2u2.length = 2300 := by
  unfold cw2u2
  rw [List.length_replicate]

theorem cw2_sentences : sentencesOf cw2text = [cw2u1, cw2u2] := by
  have hb : splitBar (replaceDotSpace (List.replicate 2300 'b')) = [List.replicate 2300 'b'] := by
    rw [rds_no_dot _ (mem_replicate_ne 2300 'b' '.' (by decide))]
    exact splitBar_no_bar _ (mem_replicate_ne 2300 'b' '|' (by decide))
  have hmain := sentencesOf_block (List.replicate 2300 'a') (List.replicate 2300 'b')
    (mem_replicate_ne 2300 'a' '.' (by decide)) (mem_replicate_ne 2300 'a' '|' (by decide))
    (List.replicate 2300 'b') [] hb
  unfold cw2text cw2u1 cw2u2
  exact hmain

theorem cw3text_length : cw3text.length = 4501 := by
  unfold cw3text
  rw [List.length_append, List.length_replicate, List.length_cons, List.length_cons,
    List.length_append, List.length_replicate, List.length_cons, List.length_cons,
    List.length_replicate]

theorem cw3u1_length : cw3u1.length = 2001 := by
  unfold cw3u1
  rw [List.length_append, List.length_replicate]
  decide

theorem cw3u2_length : cw3u2.length = 2001 := by
  unfold cw3u2
  rw [List.length_append, List.length_replicate]
  decide

theorem cw3u3_length : cw3u3.length = 497 := by
  unfold cw3u3
  rw [List.length_replicate]

theorem cw3_sentences : sentencesOf cw3text = [cw3u1, cw3u2, cw3u3] := by
  have hc : splitBar (replaceDotSpace (List.replicate 497 'c')) = [List.replicate 497 'c'] := by
    rw [rds_no_dot _ (mem_replicate_ne 497 'c' '.' (by decide))]
    exact splitBar_no_bar _ (mem_replicate_ne 497 'c' '|' (by decide))
  have hinner := sentencesOf_block (List.replicate 2000 'b') (List.replicate 497 'c')
    (mem_replicate_ne 2000 'b' '.' (by decide)) (mem_replicate_ne 2000 'b' '|' (by decide))
    (List.replicate 497 'c') [] hc
  have houter := sentencesOf_block (List.replicate 2000 'a')
    (List.replicate 2000 'b' ++ '.' :: ' ' :: List.replicate 497 'c')
    (mem_replicate_ne 2000 'a' '.' (by decide)) (mem_replicate_ne 2000 'a' '|' (by decide))
    (List.replicate 2000 'b' ++ ['.']) [List.replicate 497 'c'] (by exact hinner)
  unfold cw3text cw3u1 cw3u2 cw3u3
  exact houter

theorem cw3_chunks : buildChunks [cw3u1, cw3u2, cw3u3] [] = [cw3u1 ++ cw3u2 ++ cw3u3] := by
  rw [buildChunks_step_fit _ _ _ (by rw [List.length_nil, cw3u1_length]; decide),
    List.nil_append]
  rw [buildChunks_step_fit _ _ _ (by rw [cw3u1_length, cw3u2_length]; decide)]
  rw [buildChunks_step_fit _ _ _ (by
    rw [List.length_append, cw3u1_length, cw3u2_length, cw3u3_length]; decide)]
  rw [buildChunks_last _ (isEmpty_false _ (List.ne_nil_of_length_pos (by
    rw [List.length_append, List.length_append, cw3u1_length, cw3u2_length, cw3u3_length]
    decide)))]

/-! ### Claim theorems about translate_text -/

/-- C1 (counterexample): `cw3text` is 4501 characters long, its three sentence
units are each shorter than 4500 characters, yet the chunk loop folds them all
into one single chunk, so only one — not at least two — chunk is passed to the
translation capability. -/
theorem C1_counterexample :
    4500 < cw3text.length ∧
    sentencesOf cw3text = [cw3u1, cw3u2, cw3u3] ∧
    cw3u1.length < 4500 ∧ cw3u2.length < 4500 ∧ cw3u3.length < 4500 ∧
    (translate_text cwTr cw3text).2 = [cw3u1 ++ cw3u2 ++ cw3u3] := by
  have hchunks : buildChunks (sentencesOf cw3text) [] = [cw3u1 ++ cw3u2 ++ cw3u3] := by
    rw [cw3_sentences]
    exact cw3_chunks
  have hstrip : pyStrip cw3text ≠ [] := by
    rw [Ne, pyStrip_eq_nil_iff]
    intro hall
    have hmem : 'a' ∈ cw3text := by
      unfold cw3text
      exact List.mem_append_left _ (List.mem_replicate.mpr ⟨by decide, rfl⟩)
    exact absurd (List.all_eq_true.mp hall 'a' hmem) (by decide)
  have hlen : LIMIT < cw3text.length := by rw [cw3text_length]; decide
  have htt := translate_text_long_ok cwTr cw3text
      ((buildChunks (sentencesOf cw3text) []).map fun c => (cwTr c).getD [])
      (buildChunks (sentencesOf cw3text) []) hstrip hlen
      (chunkTranslate_of_ok cwTr (sentencesOf cw3text) [] (by intro c hc; simp [cwTr]))
  refine ⟨by rw [cw3text_length]; decide, cw3_sentences, by rw [cw3u1_length]; decide,
    by rw [cw3u2_length]; decide, by rw [cw3u3_length]; decide, ?_⟩
  rw [htt, hchunks]

/-- C1 (amended): for input over 4500 characters whose sentence units are each
shorter than 4500 characters and not all empty, and whose chunk translations
all succeed, translate_text passes at least one chunk — each shorter than 4500
characters — to the translation capability, and returns the per-chunk
translations joined with single spaces in the original chunk order. -/
theorem C1_amended (tr : Translator) (text : List Char)
    (hlen : LIMIT < text.length)
    (hunits : ∀ u ∈ sentencesOf text, u.length < LIMIT)
    (hne : ∃ u ∈ sentencesOf text, u ≠ [])
    (hok : ∀ c ∈ buildChunks (sentencesOf text) [], tr c ≠ none) :
    1 ≤ (buildChunks (sentencesOf text) []).length ∧
    (translate_text tr text).2 = buildChunks (sentencesOf text) [] ∧
    (∀ c ∈ buildChunks (sentencesOf text) [], c.length < LIMIT) ∧
    (translate_text tr text).1 =
      joinWith [' '] ((buildChunks (sentencesOf text) []).map fun c => (tr c).getD []) := by
  have hstrip : pyStrip text ≠ [] := by
    intro heq
    have hall := (pyStrip_eq_nil_iff text).mp heq
    have hnod : ∀ c ∈ text, ¬ c = '.' := fun c hc =>
      not_dot_of_pyIsSpace c (List.all_eq_true.mp hall c hc)
    have hnob : ∀ c ∈ text, ¬ c = '|' := fun c hc =>
      not_bar_of_pyIsSpace c (List.all_eq_true.mp hall c hc)
    have hsent : sentencesOf text = [text] := by
      unfold sentencesOf
      rw [rds_no_dot text hnod]
      exact splitBar_no_bar text hnob
    have := hunits text (by rw [hsent]; exact List.mem_singleton_self text)
    omega
  have hct := chunkTranslate_of_ok tr (sentencesOf text) [] hok
  have htt := translate_text_long_ok tr text _ _ hstrip hlen hct
  refine ⟨?_, ?_, ?_, ?_⟩
  · have hne' : buildChunks (sentencesOf text) [] ≠ [] :=
      buildChunks_ne_nil _ _ (Or.inr hne)
    have := List.length_pos.mpr hne'
    omega
  · rw [htt]
  · exact buildChunks_all_lt _ _ hunits (by decide)
  · rw [htt]

/-- C1 (witness): the amended statement applied to the concrete 4602-character
input `cw2text` (two units of lengths 2301 and 2300, two chunks). -/
theorem C1_witness :
    1 ≤ (buildChunks (sentencesOf cw2text) []).length ∧
    (translate_text cwTr cw2text).2 = buildChunks (sentencesOf cw2text) [] ∧
    (translate_text cwTr cw2text).1 =
      joinWith [' '] ((buildChunks (sentencesOf cw2text) []).map fun c => (cwTr c).getD []) := by
  have h := C1_amended cwTr cw2text
    (by rw [cw2text_length]; decide)
    (by rw [cw2_sentences]
        intro u hu
        rcases List.mem_cons.mp hu with rfl | hu'
        · rw [cw2u1_length]; decide
        · rw [List.mem_singleton.mp hu', cw2u2_length]; decide)
    (by rw [cw2_sentences]
        exact ⟨cw2u1, List.mem_cons_self _ _, by
          apply List.ne_nil_of_length_pos
          rw [cw2u1_length]; decide⟩)
    (by intro c hc; simp [cwTr])
  exact ⟨h.1, h.2.1, h.2.2.2⟩

/-- C2: when the translation capability raises for any argument that
translate_text passed to it — in the chunked path or the single-call path —
the whole call returns the empty string, never a partial concatenation.
(The Lean embedding is total, so no exception can propagate.) -/
theorem C2_thm (tr : Translator) (text : List Char)
    (h : ∃ c ∈ (translate_text tr text).2, tr c = none) :
    (translate_text tr text).1 = [] := by
  by_cases hst : pyStrip text = []
  · rw [translate_text_empty tr text hst]
  · by_cases hlen : LIMIT < text.length
    · rcases hct : chunkTranslate tr (sentencesOf text) [] with ⟨fst, snd⟩
      cases fst with
      | none => rw [translate_text_long_err tr text snd hst hlen hct]
      | some parts =>
        exfalso
        have hnone := chunkTranslate_fst_none tr (sentencesOf text) [] (by
          rw [translate_text_long_ok tr text parts snd hst hlen hct] at h
          rw [hct]
          simpa using h)
        rw [hct] at hnone
        simp at hnone
    · have hs := translate_text_short tr text hst (Nat.not_lt.mp hlen)
      rw [hs.1] at h
      simp at h
      rw [hs.2, h]
      rfl

/-- C2 (witness): a two-character input whose single translation call raises. -/
theorem C2_witness : (translate_text (fun _ => none) ['h', 'i']).1 = [] :=
  C2_thm _ _ ⟨['h', 'i'], by decide, rfl⟩

/-- C4: an empty or whitespace-only input makes translate_text return the
empty string with zero translation-capability invocations. -/
theorem C4_thm (tr : Translator) (text : List Char) (h : text.all pyIsSpace = true) :
    translate_text tr text = ([], []) :=
  translate_text_empty tr text ((pyStrip_eq_nil_iff text).mpr h)

/-- C4 (witness): a whitespace-only input. -/
theorem C4_witness : translate_text cwTr [' ', '\t'] = ([], []) :=
  C4_thm cwTr [' ', '\t'] (by decide)

/-- C5: a non-empty, non-whitespace-only input of at most 4500 characters
produces exactly one translation-capability invocation, with the whole text as
argument, and the result is that call's translation (or empty on failure). -/
theorem C5_thm (tr : Translator) (text : List Char) (hws : text.all pyIsSpace = false)
    (hlen : text.length ≤ LIMIT) :
    (translate_text tr text).2 = [text] ∧ (translate_text tr text).1 = (tr text).getD [] := by
  apply translate_text_short tr text ?_ hlen
  intro heq
  have hall := (pyStrip_eq_nil_iff text).mp heq
  rw [hall] at hws
  exact Bool.noConfusion hws

/-- C5 (witness): a successful single call on a two-character input. -/
theorem C5_witness :
    (translate_text (fun _ => some ['x']) ['h', 'i']).2 = [['h', 'i']] ∧
    (translate_text (fun _ => some ['x']) ['h', 'i']).1 =
      ((fun (_ : List Char) => some ['x']) ['h', 'i']).getD [] :=
  C5_thm _ _ (by decide) (by decide)

/-! ### Claim theorems about add_ipa_to_word and detect_language -/

/-- C6: add_ipa_to_word returns its input unchanged whenever the alphabetic
cleaned form has length at most 7, and also whenever the cleaned length
exceeds 7 but the transcription raises, is empty, or equals the lower-cased
cleaned word.  (The embedding is a total function, so no exception can
propagate in any case.) -/
theorem C6_thm (conv : IpaConv) (word : List Char) :
    ((word.filter Char.isAlpha).length ≤ 7 → add_ipa_to_word conv word = word) ∧
    (7 < (word.filter Char.isAlpha).length →
      (conv (lowerAZ (word.filter Char.isAlpha)) = none ∨
       conv (lowerAZ (word.filter Char.isAlpha)) = some [] ∨
       conv (lowerAZ (word.filter Char.isAlpha)) = some (lowerAZ (word.filter Char.isAlpha))) →
      add_ipa_to_word conv word = word) := by
  constructor
  · intro h7
    simp only [add_ipa_to_word]
    rw [if_pos h7]
  · intro h7 hcases
    simp only [add_ipa_to_word]
    rw [if_neg (Nat.not_le.mpr h7)]
    rcases hcases with hc | hc | hc <;> rw [hc]
    · simp
    · simp

/-- C6 (witness): a 9-letter word whose transcription lookup raises. -/
theorem C6_witness :
    add_ipa_to_word cwConvNone ("algorithm".toList) = "algorithm".toList :=
  (C6_thm cwConvNone ("algorithm".toList)).2 (by decide) (Or.inl rfl)

/-- C7 (counterexample): on the 9-letter word `algorithm` with transcription
`z`, the output is the word followed by a single-quoted
`<sup class='ipa'>/z/</sup>` fragment; the double-quoted `<sup class="ipa">`
fragment stated by the claim does not occur in the output. -/
theorem C7_counterexample :
    add_ipa_to_word cwConvZ ("algorithm".toList) =
      "algorithm".toList ++ ipaOpen ++ ['z'] ++ ipaClose ∧
    hasSub (add_ipa_to_word cwConvZ ("algorithm".toList)) dqFrag = false ∧
    hasSub (add_ipa_to_word cwConvZ ("algorithm".toList))
      ("<sup class=".toList ++ [sq] ++ "ipa".toList ++ [sq] ++ ">".toList) = true := by
  refine ⟨?_, ?_, ?_⟩ <;> decide

/-- C7 (amended): for cleaned length over 7 and a successful transcription that
is nonempty and differs from the lower-cased cleaned word, the output is the
original word (casing and punctuation untouched) immediately followed by
`<sup class='ipa'>/transcription/</sup>` — with a single-quoted class
attribute, as in the source f-string. -/
theorem C7_amended (conv : IpaConv) (word ph : List Char)
    (h7 : 7 < (word.filter Char.isAlpha).length)
    (hc : conv (lowerAZ (word.filter Char.isAlpha)) = some ph)
    (hne : ph ≠ [])
    (hdiff : ph ≠ lowerAZ (word.filter Char.isAlpha)) :
    add_ipa_to_word conv word = word ++ ipaOpen ++ ph ++ ipaClose := by
  simp only [add_ipa_to_word]
  rw [if_neg (Nat.not_le.mpr h7), hc]
  show (if ¬ ph.isEmpty = true ∧ ph ≠ lowerAZ (word.filter Char.isAlpha) then
      word ++ ipaOpen ++ ph ++ ipaClose else word) = word ++ ipaOpen ++ ph ++ ipaClose
  rw [if_pos ⟨fun hh => hne (List.isEmpty_iff.mp hh), hdiff⟩]

/-- C7 (witness): the amended statement on the mixed-case, punctuated word
`Algorithms,`. -/
theorem C7_witness :
    add_ipa_to_word cwConvZ ("Algorithms,".toList) =
      "Algorithms,".toList ++ ipaOpen ++ ['z'] ++ ipaClose :=
  C7_amended cwConvZ ("Algorithms,".toList) ['z'] (by decide) rfl (by decide) (by decide)

/-- C8: detect_language classifies as `zh` exactly when the CJK fraction among
non-space characters exceeds 3/10, otherwise (including the zero-total guard
case) it classifies as `en`, and an all-space or empty input is `en`. -/
theorem C8_thm (text : List Char) :
    (detect_language text = "zh".toList ↔
      0 < (text.filter fun c => c ≠ ' ').length ∧
      (3 : ℚ) / 10 <
        ((text.filter isCJK).length : ℚ) / ((text.filter fun c => c ≠ ' ').length : ℚ)) ∧
    (detect_language text = "zh".toList ∨ detect_language text = "en".toList) ∧
    (text.all (fun c => c = ' ') = true → detect_language text = "en".toList) := by
  have hdl : detect_language text =
      (if (text.filter fun c => c ≠ ' ').length = 0 then "en".toList
       else if 10 * (text.filter isCJK).length > 3 * (text.filter fun c => c ≠ ' ').length
       then "zh".toList else "en".toList) := rfl
  set ch : Nat := (text.filter isCJK).length with hch
  set tot : Nat := (text.filter fun c => c ≠ ' ').length with htot
  refine ⟨?_, ?_, ?_⟩
  · rw [hdl]
    by_cases h0 : tot = 0
    · rw [if_pos h0]
      constructor
      · intro hh; exact absurd hh (by decide)
      · rintro ⟨hpos, _⟩; omega
    · rw [if_neg h0]
      have htpos : 0 < tot := Nat.pos_of_ne_zero h0
      by_cases hgt : 10 * ch > 3 * tot
      · rw [if_pos hgt]
        refine ⟨fun _ => ⟨htpos, ?_⟩, fun _ => rfl⟩
        rw [div_lt_div_iff₀ (by norm_num) (by exact_mod_cast htpos)]
        exact_mod_cast (by omega : 3 * tot < ch * 10)
      · rw [if_neg hgt]
        constructor
        · intro hh; exact absurd hh (by decide)
        · rintro ⟨_, hlt⟩
          exfalso
          rw [div_lt_div_iff₀ (by norm_num) (by exact_mod_cast htpos)] at hlt
          have hlt' : 3 * tot < ch * 10 := by exact_mod_cast hlt
          omega
  · rw [hdl]
    by_cases h0 : tot = 0
    · rw [if_pos h0]; right; rfl
    · rw [if_neg h0]
      by_cases hgt : 10 * ch > 3 * tot
      · rw [if_pos hgt]; left; rfl
      · rw [if_neg hgt]; right; rfl
  · intro hall
    have hnil : (text.filter fun c => c ≠ ' ') = [] := by
      rw [List.filter_eq_nil_iff]
      intro a ha
      have ha' : a = ' ' := by
        have := List.all_eq_true.mp hall a ha
        simpa using this
      subst ha'
      decide
    have h0 : tot = 0 := by rw [htot, hnil]; rfl
    rw [hdl, if_pos h0]

/-- C8 (witness): a one-space input classifies as `en`. -/
theorem C8_witness : detect_language [' '] = "en".toList :=
  (C8_thm [' ']).2.2 (by decide)

/-! ### Claim theorems about the fetchers and loaders -/

theorem fetchLoop_eq (conv : IpaConv) (tr : Translator) (events : List (Option PaperRaw))
    (acc : List Paper) :
    fetchLoop conv tr events acc = acc.reverse ++ (yielded events).map (mkPaper conv tr) := by
  induction events generalizing acc with
  | nil => simp [fetchLoop, yielded]
  | cons e rest ih =>
    cases e with
    | none => simp [fetchLoop, yielded]
    | some r => simp [fetchLoop, yielded, ih]

theorem repoLoop_eq (tr : Translator) (items : List Item) (acc : List Repo) :
    repoLoop tr items acc = acc.reverse ++ yieldedRepos tr items := by
  induction items generalizing acc with
  | nil => simp [repoLoop, yieldedRepos]
  | cons item rest ih =>
    cases hp : processItem tr item with
    | none => simp [repoLoop, yieldedRepos, hp]
    | some r => simp [repoLoop, yieldedRepos, hp, ih]

theorem lyricLoop_eq (files : List (List Char × Except Unit (List Char)))
    (acc : List Lyric) :
    lyricLoop files acc = acc.reverse ++ yieldedLyrics files := by
  induction files generalizing acc with
  | nil => simp [lyricLoop, yieldedLyrics]
  | cons f rest ih =>
    rcases f with ⟨n, c⟩
    cases c with
    | error e => simp [lyricLoop, yieldedLyrics]
    | ok content => simp [lyricLoop, yieldedLyrics, ih]

/-- C3 (counterexample): an iterator that yields one result and then raises
makes fetch_arxiv_papers return the one already-built record — a non-empty
partial list, not the empty list the claim requires on any internal error. -/
theorem C3_counterexample :
    (fetch_arxiv_papers cwConvNone cwTr [some cwPaperRaw, none]).length = 1 ∧
    (fetch_arxiv_papers cwConvNone cwTr [some cwPaperRaw, none]).map Paper.title_en
      = [['T']] := by
  refine ⟨?_, ?_⟩ <;> decide

/-- C3 (amended): every fetcher/loader is total (never propagates an
exception) and returns exactly the records built before the first internal
error: an error before any record is built — unreachable network target,
timeout, malformed response, missing or corrupt local file — yields the empty
list, while an error during per-record processing yields the possibly
non-empty prefix of already-built records. -/
theorem C3_amended (conv : IpaConv) (tr : Translator) :
    (∀ results : List (Option PaperRaw),
      fetch_arxiv_papers conv tr results = (yielded results).map (mkPaper conv tr)) ∧
    (∀ rest : List (Option PaperRaw), fetch_arxiv_papers conv tr (none :: rest) = []) ∧
    (∀ maxr : Nat, fetch_github_trending tr (Except.error ()) maxr = []) ∧
    (∀ (items : List Item) (maxr : Nat),
      fetch_github_trending tr (Except.ok items) maxr = yieldedRepos tr (items.take maxr)) ∧
    (∀ α : Type, load_mental_models (α := α) none = [] ∧
      load_mental_models (α := α) (some (Except.error ())) = []) ∧
    (load_quotes tr none = [] ∧ load_quotes tr (some (Except.error ())) = []) ∧
    (load_lyrics none = [] ∧ ∀ files, load_lyrics (some files) = yieldedLyrics files) ∧
    (∀ α : Type, load_words (α := α) none = [] ∧
      load_words (α := α) (some (Except.error ())) = []) := by
  refine ⟨?_, ?_, ?_, ?_, ?_, ⟨rfl, rfl⟩, ⟨rfl, ?_⟩, ?_⟩
  · intro results
    simpa using fetchLoop_eq conv tr results []
  · intro rest
    rfl
  · intro maxr
    rfl
  · intro items maxr
    simpa using repoLoop_eq tr (items.take maxr) []
  · intro α
    exact ⟨rfl, rfl⟩
  · intro files
    simpa using lyricLoop_eq files []
  · intro α
    exact ⟨rfl, rfl⟩

/-- C9 (code bug): `.get('language', 'Unknown')` substitutes `Unknown` only
for an absent key; when the key is present with JSON null — the shape GitHub
returns for a repository without a primary language — the stored field is the
null value, not a text value.  With the key absent the field is `Unknown`. -/
theorem C9_bug :
    (fetch_github_trending cwTr (Except.ok [itemNullLang]) 10).map Repo.language = [none] ∧
    (fetch_github_trending cwTr (Except.ok [itemNoLang]) 10).map Repo.language
      = [some ("Unknown".toList)] := by
  refine ⟨?_, ?_⟩ <;> decide

/-! ### Concrete-input lemmas for the chunk/substring claims -/

theorem hasSub_cons (c : Char) (rest p : List Char) :
    hasSub (c :: rest) p = (startsWith (c :: rest) p || hasSub rest p) := rfl

theorem cwAu3_no_bar : ∀ c ∈ cwAu3, ¬ c = '|' := by
  intro c hc
  unfold cwAu3 at hc
  rcases List.mem_cons.mp hc with rfl | hc
  · decide
  rcases List.mem_cons.mp hc with rfl | hc
  · decide
  rcases List.mem_cons.mp hc with rfl | hc
  · decide
  rcases List.mem_cons.mp hc with rfl | hc
  · decide
  exact mem_replicate_ne 4493 'z' '|' (by decide) c hc

theorem cwAu3_rds : replaceDotSpace cwAu3 = cwAu3 := by
  unfold cwAu3
  rw [rds_cons₂_ne 'A' '.' _ (by decide)]
  rw [rds_cons₂_ne '.' 'B' _ (by decide)]
  rw [rds_cons₂_ne 'B' '.' _ (by decide)]
  rw [show (4493 : Nat) = 4492 + 1 from rfl, List.replicate_succ]
  rw [rds_cons₂_ne '.' 'z' _ (by decide)]
  rw [rds_no_dot ('z' :: List.replicate 4492 'z') (by
    intro c hc
    rcases List.mem_cons.mp hc with rfl | hc
    · decide
    · exact mem_replicate_ne 4492 'z' '.' (by decide) c hc)]

theorem cwAu3_length : cwAu3.length = 4497 := by
  unfold cwAu3
  rw [List.length_cons, List.length_cons, List.length_cons, List.length_cons,
    List.length_replicate]

theorem cwAtext_length : cwAtext.length = 4503 := by
  have h : cwAtext = 'A' :: '.' :: ' ' :: 'B' :: '.' :: ' ' :: cwAu3 := rfl
  rw [h, List.length_cons, List.length_cons, List.length_cons, List.length_cons,
    List.length_cons, List.length_cons, cwAu3_length]

theorem cwA_sentences : sentencesOf cwAtext = [['A', '.'], ['B', '.'], cwAu3] := by
  have hrest2 : splitBar (replaceDotSpace cwAu3) = [cwAu3] := by
    rw [cwAu3_rds]
    exact splitBar_no_bar cwAu3 cwAu3_no_bar
  have hinner := sentencesOf_block ['B'] cwAu3
    (by intro c hc; rw [List.mem_singleton.mp hc]; decide)
    (by intro c hc; rw [List.mem_singleton.mp hc]; decide)
    cwAu3 [] hrest2
  have houter := sentencesOf_block ['A'] (['B'] ++ '.' :: ' ' :: cwAu3)
    (by intro c hc; rw [List.mem_singleton.mp hc]; decide)
    (by intro c hc; rw [List.mem_singleton.mp hc]; decide)
    (['B'] ++ ['.']) [cwAu3] (by exact hinner)
  unfold cwAtext
  rw [houter]
  rfl

theorem cwA_chunks :
    buildChunks [['A', '.'], ['B', '.'], cwAu3] [] = [['A', '.', 'B', '.'], cwAu3] := by
  rw [buildChunks_step_fit _ _ _ (by decide), List.nil_append]
  rw [buildChunks_step_fit _ _ _ (by decide)]
  rw [show (['A', '.'] ++ ['B', '.'] : List Char) = ['A', '.', 'B', '.'] from rfl]
  rw [buildChunks_step_flush cwAu3 [] ['A', '.', 'B', '.']
    (by rw [cwAu3_length]; decide) rfl]
  rw [buildChunks_last _ (isEmpty_false _ (List.ne_nil_of_length_pos (by
    rw [cwAu3_length]; decide)))]

theorem cwBtext_length : cwBtext.length = 4506 := by
  have h : cwBtext = 'A' :: '.' :: ' ' :: 'B' :: '.' :: ' ' :: List.replicate 4500 'z' := rfl
  rw [h, List.length_cons, List.length_cons, List.length_cons, List.length_cons,
    List.length_cons, List.length_cons, List.length_replicate]

theorem cwB_sentences :
    sentencesOf cwBtext = [['A', '.'], ['B', '.'], List.replicate 4500 'z'] := by
  have hrest2 : splitBar (replaceDotSpace (List.replicate 4500 'z'))
      = [List.replicate 4500 'z'] := by
    rw [rds_no_dot _ (mem_replicate_ne 4500 'z' '.' (by decide))]
    exact splitBar_no_bar _ (mem_replicate_ne 4500 'z' '|' (by decide))
  have hinner := sentencesOf_block ['B'] (List.replicate 4500 'z')
    (by intro c hc; rw [List.mem_singleton.mp hc]; decide)
    (by intro c hc; rw [List.mem_singleton.mp hc]; decide)
    (List.replicate 4500 'z') [] hrest2
  have houter := sentencesOf_block ['A'] (['B'] ++ '.' :: ' ' :: List.replicate 4500 'z')
    (by intro c hc; rw [List.mem_singleton.mp hc]; decide)
    (by intro c hc; rw [List.mem_singleton.mp hc]; decide)
    (['B'] ++ ['.']) [List.replicate 4500 'z'] (by exact hinner)
  unfold cwBtext
  rw [houter]
  rfl

theorem cwB_chunks :
    buildChunks [['A', '.'], ['B', '.'], List.replicate 4500 'z'] []
      = [['A', '.', 'B', '.'], List.replicate 4500 'z'] := by
  rw [buildChunks_step_fit _ _ _ (by decide), List.nil_append]
  rw [buildChunks_step_fit _ _ _ (by decide)]
  rw [show (['A', '.'] ++ ['B', '.'] : List Char) = ['A', '.', 'B', '.'] from rfl]
  rw [buildChunks_step_flush (List.replicate 4500 'z') [] ['A', '.', 'B', '.']
    (by rw [List.length_replicate]; decide) rfl]
  rw [buildChunks_last _ (isEmpty_false _ (List.ne_nil_of_length_pos (by
    rw [List.length_replicate]; decide)))]

theorem cwB_hasSub : hasSub cwBtext ['A', '.', 'B', '.'] = false := by
  rw [show cwBtext = 'A' :: '.' :: ' ' :: 'B' :: '.' :: ' ' :: List.replicate 4500 'z'
    from rfl]
  rw [hasSub_cons, hasSub_cons, hasSub_cons, hasSub_cons, hasSub_cons, hasSub_cons]
  rw [hasSub_replicate_ne 4500 'z' 'A' ['.', 'B', '.'] (by decide)]
  decide

/-! ### Claim theorems about the splitting mechanics (C10) -/

/-- C10 (counterexample): in `cwAtext` the first chunk passed to the
translator, `A.B.`, concatenates the two units `A.` and `B.` — it is not
itself a unit — and it nevertheless occurs verbatim in the input, refuting
the claim that such a chunk is not a verbatim substring of the original. -/
theorem C10_counterexample :
    4500 < cwAtext.length ∧
    sentencesOf cwAtext = [['A', '.'], ['B', '.'], cwAu3] ∧
    (translate_text cwTr cwAtext).2 = [['A', '.', 'B', '.'], cwAu3] ∧
    ['A', '.', 'B', '.'] ∉ sentencesOf cwAtext ∧
    hasSub cwAtext ['A', '.', 'B', '.'] = true := by
  have hchunks : buildChunks (sentencesOf cwAtext) [] = [['A', '.', 'B', '.'], cwAu3] := by
    rw [cwA_sentences]
    exact cwA_chunks
  have hstrip : pyStrip cwAtext ≠ [] := by
    rw [Ne, pyStrip_eq_nil_iff]
    intro hall
    have hmem : 'A' ∈ cwAtext := by
      unfold cwAtext
      exact List.mem_append_left _ (List.mem_singleton_self 'A')
    exact absurd (List.all_eq_true.mp hall 'A' hmem) (by decide)
  have hlen : LIMIT < cwAtext.length := by rw [cwAtext_length]; decide
  have htt := translate_text_long_ok cwTr cwAtext _ _ hstrip hlen
    (chunkTranslate_of_ok cwTr (sentencesOf cwAtext) [] (by intro c hc; simp [cwTr]))
  refine ⟨by rw [cwAtext_length]; decide, cwA_sentences, ?_, ?_, ?_⟩
  · rw [htt, hchunks]
  · rw [cwA_sentences]
    intro hmem
    rcases List.mem_cons.mp hmem with heq | hmem
    · exact absurd heq (by decide)
    rcases List.mem_cons.mp hmem with heq | hmem
    · exact absurd heq (by decide)
    rcases List.mem_cons.mp hmem with heq | hmem
    · have hlen4 := congrArg List.length heq
      rw [cwAu3_length] at hlen4
      exact absurd hlen4 (by decide)
    · exact absurd hmem (List.not_mem_nil _)
  · have hshape : cwAtext = ['A', '.', ' ', 'B', '.', ' '] ++
        (['A', '.', 'B', '.'] ++ List.replicate 4493 'z') := rfl
    rw [hshape]
    exact hasSub_append_left _ _ _ (hasSub_of_startsWith _ _ (startsWith_append _ _))

/-- C10 (amended): splitting replaces every `. ` by `.|` and splits at `|`:
for a `|`-free input the units rejoin with single spaces to the original text
and every unit except the last keeps its trailing period (the space after it
is dropped); units accumulated into one chunk are concatenated with no
separator (the chunk list flattens to the concatenation of all units); and the
text submitted for a multi-unit chunk need not be — though it coincidentally
can be — a verbatim substring of the original input: there are inputs over
4500 characters whose multi-unit chunk occurs nowhere in the text. -/
theorem C10_amended :
    (∀ text : List Char, '|' ∉ text →
      joinWith [' '] (sentencesOf text) = text ∧
      ∀ u ∈ (sentencesOf text).dropLast, ∃ v, u = v ++ ['.']) ∧
    (∀ (ss : List (List Char)) (cur : List Char),
      (buildChunks ss cur).flatten = cur ++ ss.flatten) ∧
    (∃ (tr : Translator) (text chunk : List Char),
      4500 < text.length ∧ chunk ∈ (translate_text tr text).2 ∧
      chunk ∉ sentencesOf text ∧ hasSub text chunk = false) := by
  refine ⟨sentences_rejoin, buildChunks_join, ?_⟩
  refine ⟨cwTr, cwBtext, ['A', '.', 'B', '.'], ?_, ?_, ?_, cwB_hasSub⟩
  · rw [cwBtext_length]; decide
  · have hchunks : buildChunks (sentencesOf cwBtext) []
        = [['A', '.', 'B', '.'], List.replicate 4500 'z'] := by
      rw [cwB_sentences]
      exact cwB_chunks
    have hstrip : pyStrip cwBtext ≠ [] := by
      rw [Ne, pyStrip_eq_nil_iff]
      intro hall
      have hmem : 'A' ∈ cwBtext := by
        unfold cwBtext
        exact List.mem_append_left _ (List.mem_singleton_self 'A')
      exact absurd (List.all_eq_true.mp hall 'A' hmem) (by decide)
    have hlen : LIMIT < cwBtext.length := by rw [cwBtext_length]; decide
    have htt := translate_text_long_ok cwTr cwBtext _ _ hstrip hlen
      (chunkTranslate_of_ok cwTr (sentencesOf cwBtext) [] (by intro c hc; simp [cwTr]))
    rw [htt, hchunks]
    exact List.mem_cons_self _ _
  · rw [cwB_sentences]
    intro hmem
    rcases List.mem_cons.mp hmem with heq | hmem
    · exact absurd heq (by decide)
    rcases List.mem_cons.mp hmem with heq | hmem
    · exact absurd heq (by decide)
    rcases List.mem_cons.mp hmem with heq | hmem
    · have hlen4 := congrArg List.length heq
      rw [List.length_replicate] at hlen4
      exact absurd hlen4 (by decide)
    · exact absurd hmem (List.not_mem_nil _)

/-- C10 (witness): the rejoin part of the amended statement at a concrete
input with one `. ` boundary. -/
theorem C10_witness :
    joinWith [' '] (sentencesOf ['a', '.', ' ', 'b']) = ['a', '.', ' ', 'b'] :=
  (C10_amended.1 ['a', '.', ' ', 'b'] (by decide)).1

end Builder
